import Mathlib

/-!
Verification of the Puthu Tracker activity-tracking core (Screen-Tracker
repository).  The tray front end lives in `background_runner.pyw`; the
tracking engine (SessionAccumulator, Tracker, TrackingStore) is specified in
the design document and modelled here as pure Lean functions.  Time is
measured in whole seconds as a natural number; a calendar date is the number
of whole days since the epoch.
-/

/-- Number of seconds in one calendar day. -/
def dayLen : Nat := 86400

/-- Modelled from the spec: a closed Session record as persisted by
TrackingStore — `{app_name, start_time, end_time, duration_seconds, date}`.
The app identity (process name plus window title) is modelled as the single
`app_name` string. -/
structure Session where
  app_name : String
  start_time : Nat
  end_time : Nat
  duration_seconds : Nat
  date : Nat
deriving DecidableEq, Repr

/-- Modelled from the spec: one per-tick sample — `{timestamp, app_identity,
is_idle}`.  `app_identity = none` covers both an idle tick and the
"no foreground app" sentinel, which the accumulator treats as idle. -/
structure Sample where
  time : Nat
  app_identity : Option String
deriving DecidableEq, Repr

/-- Modelled from the spec: the SessionAccumulator state — `NoSession` is
`none`, `OpenSession(app_identity, start_time)` is `some (a, t0)`. -/
abbrev AccState : Type := Option (String × Nat)

/-- Build a closed Session for identity `a` covering `[t0, t1]`. -/
def mkSession (a : String) (t0 t1 : Nat) : Session :=
  { app_name := a, start_time := t0, end_time := t1,
    duration_seconds := t1 - t0, date := t0 / dayLen }

/-- Modelled from the spec (day-boundary policy, §4.3): split the interval
`[t0, t1]` of identity `a` at each midnight it crosses, so that no emitted
Session extends past the midnight that follows its start. -/
def splitSessions (a : String) (t0 t1 : Nat) : List Session :=
  if h : (t0 / dayLen + 1) * dayLen < t1 then
    mkSession a t0 ((t0 / dayLen + 1) * dayLen) ::
      splitSessions a ((t0 / dayLen + 1) * dayLen) t1
  else
    [mkSession a t0 t1]
termination_by t1 - t0
decreasing_by
  simp only [dayLen] at *
  omega

/-- Modelled from the spec (§4.3): the SessionAccumulator transition function
`observe : (state, sample) -> (state, emitted sessions)`.
  * `NoSession` + idle → stay `NoSession`;
  * `NoSession` + active A → `OpenSession(A, sample.time)`;
  * `OpenSession(A, t0)` + active A, date unchanged → stay, no emission;
  * `OpenSession(A, t0)` + active A, date advanced → emit the splits of
    `[t0, midnight]` and re-open `OpenSession(A, midnight)`;
  * `OpenSession(A, t0)` + active B ≠ A → emit `[t0, sample.time]` (split at
    midnights), transition to `OpenSession(B, sample.time)`;
  * `OpenSession(A, t0)` + idle → emit `[t0, sample.time]` (split at
    midnights), transition to `NoSession`. -/
def observe (st : AccState) (s : Sample) : AccState × List Session :=
  match st, s.app_identity with
  | none, none => (none, [])
  | none, some b => (some (b, s.time), [])
  | some (a, t0), none => (none, splitSessions a t0 s.time)
  | some (a, t0), some b =>
      if b = a then
        if t0 / dayLen < s.time / dayLen then
          (some (a, s.time / dayLen * dayLen),
           splitSessions a t0 (s.time / dayLen * dayLen))
        else
          (some (a, t0), [])
      else
        (some (b, s.time), splitSessions a t0 s.time)

/-- Run the accumulator over a list of samples, collecting every emitted
Session in order. -/
def runAcc (st : AccState) (samples : List Sample) : AccState × List Session :=
  match samples with
  | [] => (st, [])
  | s :: rest =>
      let step := observe st s
      let tail := runAcc step.1 rest
      (tail.1, step.2 ++ tail.2)

/-- Sum of the durations of a list of sessions. -/
def durSum (l : List Session) : Nat :=
  (l.map (fun s => s.duration_seconds)).sum

/-- Duration credited to a still-open session at wall-clock time `now`. -/
def pending (st : AccState) (now : Nat) : Nat :=
  match st with
  | none => 0
  | some (_, t0) => now - t0

/-- Wall-clock time sampled as active: each active sample is credited with
the interval up to the next sample, the last sample up to `now`. -/
def activeTimeUntil (now : Nat) : List Sample → Nat
  | [] => 0
  | [s] => if s.app_identity.isSome then now - s.time else 0
  | s :: s2 :: rest =>
      (if s.app_identity.isSome then s2.time - s.time else 0) +
        activeTimeUntil now (s2 :: rest)

/-- Timestamp of the first sample, or `now` if there is none. -/
def firstTime (samples : List Sample) (now : Nat) : Nat :=
  match samples with
  | [] => now
  | s :: _ => s.time

/-- Sample timestamps strictly increase along the trace. -/
abbrev timesIncr (samples : List Sample) : Prop :=
  List.Chain' (fun s1 s2 => s1.time < s2.time) samples

theorem splitSessions_durSum (a : String) (t0 t1 : Nat) (h : t0 ≤ t1) :
    durSum (splitSessions a t0 t1) = t1 - t0 := by
  induction t0, t1 using splitSessions.induct a with
  | case1 t0 t1 hlt ih =>
      rw [splitSessions, dif_pos hlt]
      have ih2 := ih (le_of_lt hlt)
      simp only [durSum, mkSession, List.map_cons, List.sum_cons] at ih2 ⊢
      simp only [dayLen] at *
      omega
  | case2 t0 t1 hlt =>
      rw [splitSessions, dif_neg hlt]
      simp only [durSum, mkSession, List.map_cons, List.sum_cons, List.map_nil,
        List.sum_nil]
      omega

theorem splitSessions_mem (a : String) (t0 t1 : Nat) (h : t0 < t1) :
    ∀ x ∈ splitSessions a t0 t1,
      x.app_name = a ∧
      x.duration_seconds = x.end_time - x.start_time ∧
      0 < x.duration_seconds ∧
      x.date = x.start_time / dayLen ∧
      x.end_time ≤ (x.start_time / dayLen + 1) * dayLen ∧
      t0 ≤ x.start_time ∧ x.end_time ≤ t1 := by
  induction t0, t1 using splitSessions.induct a with
  | case1 t0 t1 hlt ih =>
      rw [splitSessions, dif_pos hlt]
      intro x hx
      rcases List.mem_cons.1 hx with hx | hx
      · subst hx
        simp only [mkSession, dayLen, true_and, and_true] at *
        omega
      · obtain ⟨h1, h2, h3, h4, h5, h6, h7⟩ := ih hlt x hx
        have ht0mid : t0 < (t0 / dayLen + 1) * dayLen := by
          simp only [dayLen]; omega
        exact ⟨h1, h2, h3, h4, h5, by omega, h7⟩
  | case2 t0 t1 hlt =>
      rw [splitSessions, dif_neg hlt]
      intro x hx
      rcases List.mem_cons.1 hx with hx | hx
      · subst hx
        simp only [mkSession, dayLen, true_and, and_true] at *
        omega
      · simp at hx

theorem observe_durSum (st : AccState) (s : Sample) (next : Nat)
    (hst : ∀ a t0, st = some (a, t0) → t0 ≤ s.time)
    (hnext : s.time ≤ next) :
    durSum (observe st s).2 + pending (observe st s).1 next =
      pending st s.time +
        (if s.app_identity.isSome then next - s.time else 0) := by
  obtain ⟨t, ident⟩ := s
  dsimp only at hst hnext ⊢
  rcases st with _ | ⟨a, t0⟩ <;> rcases ident with _ | b
  · simp [observe, pending, durSum]
  · simp [observe, pending, durSum]
  · have ht0 : t0 ≤ t := hst a t0 rfl
    have hobs : observe (some (a, t0)) ⟨t, none⟩ = (none, splitSessions a t0 t) := by
      simp [observe]
    rw [hobs]
    show durSum (splitSessions a t0 t) + pending none next = _
    rw [splitSessions_durSum a t0 t ht0]
    simp [pending]
  · have ht0 : t0 ≤ t := hst a t0 rfl
    by_cases hb : b = a
    · by_cases hd : t0 / dayLen < t / dayLen
      · have hobs : observe (some (a, t0)) ⟨t, some b⟩ =
            (some (a, t / dayLen * dayLen),
              splitSessions a t0 (t / dayLen * dayLen)) := by
          simp [observe, hb, hd]
        rw [hobs]
        have hmid : t0 ≤ t / dayLen * dayLen := by
          simp only [dayLen] at *; omega
        show durSum (splitSessions a t0 (t / dayLen * dayLen)) +
            pending (some (a, t / dayLen * dayLen)) next = _
        rw [splitSessions_durSum a t0 _ hmid]
        simp only [pending, Option.isSome_some, if_true, dayLen] at *
        omega
      · have hobs : observe (some (a, t0)) ⟨t, some b⟩ = (some (a, t0), []) := by
          simp [observe, hb, hd]
        rw [hobs]
        show durSum [] + pending (some (a, t0)) next = _
        simp only [durSum, List.map_nil, List.sum_nil, pending,
          Option.isSome_some, if_true]
        omega
    · have hobs : observe (some (a, t0)) ⟨t, some b⟩ =
          (some (b, t), splitSessions a t0 t) := by
        simp [observe, hb]
      rw [hobs]
      show durSum (splitSessions a t0 t) + pending (some (b, t)) next = _
      rw [splitSessions_durSum a t0 t ht0]
      simp only [pending, Option.isSome_some, if_true]

theorem durSum_append (l1 l2 : List Session) :
    durSum (l1 ++ l2) = durSum l1 + durSum l2 := by
  simp [durSum]

theorem observe_open_le (st : AccState) (s : Sample)
    (hst : ∀ a t0, st = some (a, t0) → t0 ≤ s.time) :
    ∀ b t1, (observe st s).1 = some (b, t1) → t1 ≤ s.time := by
  obtain ⟨t, ident⟩ := s
  dsimp only at hst ⊢
  rcases st with _ | ⟨a, t0⟩ <;> rcases ident with _ | b0
  · intro b t1 h; simp [observe] at h
  · intro b t1 h
    simp only [observe] at h
    obtain ⟨-, h2⟩ := Prod.mk.injEq .. ▸ Option.some.injEq .. ▸ h
    omega
  · intro b t1 h; simp [observe] at h
  · intro b t1 h
    by_cases hb : b0 = a
    · by_cases hd : t0 / dayLen < t / dayLen
      · have hobs : (observe (some (a, t0)) ⟨t, some b0⟩).1 =
            some (a, t / dayLen * dayLen) := by
          simp [observe, hb, hd]
        rw [hobs] at h
        obtain ⟨-, h2⟩ := Option.some.injEq .. ▸ h
        simp only [dayLen] at *
        omega
      · have hobs : (observe (some (a, t0)) ⟨t, some b0⟩).1 = some (a, t0) := by
          simp [observe, hb, hd]
        rw [hobs] at h
        obtain ⟨-, h2⟩ := Option.some.injEq .. ▸ h
        have := hst a t0 rfl
        omega
    · have hobs : (observe (some (a, t0)) ⟨t, some b0⟩).1 = some (b0, t) := by
        simp [observe, hb]
      rw [hobs] at h
      obtain ⟨-, h2⟩ := Option.some.injEq .. ▸ h
      omega

theorem activeTimeUntil_cons (now : Nat) (s : Sample) (rest : List Sample) :
    activeTimeUntil now (s :: rest) =
      (if s.app_identity.isSome then firstTime rest now - s.time else 0) +
        activeTimeUntil now rest := by
  cases rest with
  | nil => simp [activeTimeUntil, firstTime]
  | cons s2 r2 => simp [activeTimeUntil, firstTime]

theorem runAcc_durSum (samples : List Sample) (st : AccState) (now : Nat)
    (hchain : timesIncr samples)
    (hbound : ∀ s ∈ samples, s.time ≤ now)
    (hst : ∀ a t0, st = some (a, t0) → t0 ≤ firstTime samples now) :
    durSum (runAcc st samples).2 + pending (runAcc st samples).1 now =
      pending st (firstTime samples now) + activeTimeUntil now samples := by
  induction samples generalizing st with
  | nil => simp [runAcc, firstTime, activeTimeUntil, durSum]
  | cons s rest ih =>
      obtain ⟨hhead, htail⟩ := List.chain'_cons'.mp hchain
      have hnext : s.time ≤ firstTime rest now := by
        cases rest with
        | nil => exact hbound s (List.mem_cons_self s [])
        | cons s2 r2 =>
            exact le_of_lt (hhead s2 rfl)
      have hst1 : ∀ a t0, st = some (a, t0) → t0 ≤ s.time := by
        intro a t0 h
        simpa [firstTime] using hst a t0 h
      have hstep := observe_durSum st s (firstTime rest now) hst1 hnext
      have hopen := observe_open_le st s hst1
      have hst2 : ∀ a t0, (observe st s).1 = some (a, t0) →
          t0 ≤ firstTime rest now := by
        intro a t0 h
        exact le_trans (hopen a t0 h) hnext
      have hbound2 : ∀ x ∈ rest, x.time ≤ now := by
        intro x hx
        exact hbound x (List.mem_cons_of_mem s hx)
      have ih2 := ih (observe st s).1 htail hbound2 hst2
      show durSum ((observe st s).2 ++ (runAcc (observe st s).1 rest).2) +
        pending (runAcc (observe st s).1 rest).1 now = _
      rw [durSum_append, activeTimeUntil_cons]
      have hfirst : firstTime (s :: rest) now = s.time := rfl
      rw [hfirst]
      omega

theorem observe_emitted_good (st : AccState) (s : Sample)
    (hst : ∀ a t0, st = some (a, t0) → t0 < s.time) :
    ∀ x ∈ (observe st s).2,
      x.duration_seconds = x.end_time - x.start_time ∧
      0 < x.duration_seconds ∧
      x.date = x.start_time / dayLen ∧
      x.end_time ≤ (x.start_time / dayLen + 1) * dayLen := by
  obtain ⟨t, ident⟩ := s
  dsimp only at hst ⊢
  rcases st with _ | ⟨a, t0⟩ <;> rcases ident with _ | b
  · intro x hx; simp [observe] at hx
  · intro x hx; simp [observe] at hx
  · have ht0 : t0 < t := hst a t0 rfl
    intro x hx
    have hobs : (observe (some (a, t0)) ⟨t, none⟩).2 = splitSessions a t0 t := by
      simp [observe]
    rw [hobs] at hx
    obtain ⟨-, h2, h3, h4, h5, -, -⟩ := splitSessions_mem a t0 t ht0 x hx
    exact ⟨h2, h3, h4, h5⟩
  · have ht0 : t0 < t := hst a t0 rfl
    intro x hx
    by_cases hb : b = a
    · by_cases hd : t0 / dayLen < t / dayLen
      · have hobs : (observe (some (a, t0)) ⟨t, some b⟩).2 =
            splitSessions a t0 (t / dayLen * dayLen) := by
          simp [observe, hb, hd]
        rw [hobs] at hx
        have hmid : t0 < t / dayLen * dayLen := by
          simp only [dayLen] at *; omega
        obtain ⟨-, h2, h3, h4, h5, -, -⟩ :=
          splitSessions_mem a t0 (t / dayLen * dayLen) hmid x hx
        exact ⟨h2, h3, h4, h5⟩
      · have hobs : (observe (some (a, t0)) ⟨t, some b⟩).2 = [] := by
          simp [observe, hb, hd]
        rw [hobs] at hx
        simp at hx
    · have hobs : (observe (some (a, t0)) ⟨t, some b⟩).2 = splitSessions a t0 t := by
        simp [observe, hb]
      rw [hobs] at hx
      obtain ⟨-, h2, h3, h4, h5, -, -⟩ := splitSessions_mem a t0 t ht0 x hx
      exact ⟨h2, h3, h4, h5⟩

theorem runAcc_emitted_good (samples : List Sample) (st : AccState)
    (hchain : timesIncr samples)
    (hst : ∀ a t0 s1, st = some (a, t0) → samples.head? = some s1 → t0 < s1.time) :
    ∀ x ∈ (runAcc st samples).2,
      x.duration_seconds = x.end_time - x.start_time ∧
      0 < x.duration_seconds ∧
      x.date = x.start_time / dayLen ∧
      x.end_time ≤ (x.start_time / dayLen + 1) * dayLen := by
  induction samples generalizing st with
  | nil => intro x hx; simp [runAcc] at hx
  | cons s rest ih =>
      obtain ⟨hhead, htail⟩ := List.chain'_cons'.mp hchain
      have hst1 : ∀ a t0, st = some (a, t0) → t0 < s.time := by
        intro a t0 h
        exact hst a t0 s h rfl
      have hopen := observe_open_le st s (fun a t0 h => le_of_lt (hst1 a t0 h))
      have hst2 : ∀ a t0 s1, (observe st s).1 = some (a, t0) →
          rest.head? = some s1 → t0 < s1.time := by
        intro a t0 s1 h hh
        have h1 := hopen a t0 h
        have h2 := hhead s1 hh
        omega
      intro x hx
      have hx2 : x ∈ (observe st s).2 ++ (runAcc (observe st s).1 rest).2 := hx
      rcases List.mem_append.1 hx2 with hx3 | hx3
      · exact observe_emitted_good st s hst1 x hx3
      · exact ih (observe st s).1 htail hst2 x hx3

theorem splitSessions_eq_single (a : String) (t0 t1 : Nat)
    (h : t1 ≤ (t0 / dayLen + 1) * dayLen) :
    splitSessions a t0 t1 = [mkSession a t0 t1] := by
  rw [splitSessions, dif_neg (by omega)]

theorem splitSessions_ne_nil (a : String) (t0 t1 : Nat) :
    splitSessions a t0 t1 ≠ [] := by
  rw [splitSessions]
  split <;> simp

/-- The scenario trace of §8: chrome for two ticks, an idle tick, then code,
at one-second cadence starting at `t0`. -/
def chromeScenario (t0 : Nat) : List Sample :=
  [⟨t0, some "chrome.exe"⟩, ⟨t0 + 1, some "chrome.exe"⟩,
   ⟨t0 + 2, none⟩, ⟨t0 + 3, some "code.exe"⟩]

/-- C1: over any strictly time-increasing sample trace, the sum of the
durations of all Sessions emitted by the accumulator plus the pending
duration of the still-open session (measured at wall-clock `now`) equals
exactly the wall-clock time that was sampled as active: no active time is
double counted and none is lost. -/
theorem accumulator_conserves_active_time (samples : List Sample) (now : Nat)
    (hchain : timesIncr samples)
    (hbound : ∀ s ∈ samples, s.time ≤ now) :
    durSum (runAcc none samples).2 + pending (runAcc none samples).1 now =
      activeTimeUntil now samples := by
  have h := runAcc_durSum samples none now hchain hbound
    (by intro a t0 h; cases h)
  simpa [pending] using h

theorem accumulator_conserves_active_time_witness :
    durSum (runAcc none (chromeScenario 0)).2 +
        pending (runAcc none (chromeScenario 0)).1 10 =
      activeTimeUntil 10 (chromeScenario 0) :=
  accumulator_conserves_active_time (chromeScenario 0) 10
    (by norm_num [chromeScenario, List.chain'_cons]) (by decide)

/-- C2: the accumulator transition table — in `OpenSession(A, t0)`, an active
sample with identity B ≠ A emits `Session{A, t0, t}` and re-opens at `(B, t)`;
an idle sample emits `Session{A, t0, t}` and goes to `NoSession`; an
unchanged active sample emits nothing (all within one calendar date); and the
§8 scenario trace emits exactly one chrome.exe Session of duration 2 ending
at `t0+2`, then holds a session open for code.exe since `t0+3`. -/
theorem observe_transition_table :
    (∀ a b t0 t, b ≠ a → t0 / dayLen = t / dayLen →
        observe (some (a, t0)) ⟨t, some b⟩ = (some (b, t), [mkSession a t0 t])) ∧
    (∀ a t0 t, t0 / dayLen = t / dayLen →
        observe (some (a, t0)) ⟨t, none⟩ = (none, [mkSession a t0 t])) ∧
    (∀ a t0 t, t0 / dayLen = t / dayLen →
        observe (some (a, t0)) ⟨t, some a⟩ = (some (a, t0), [])) ∧
    (∀ t0, t0 / dayLen = (t0 + 3) / dayLen →
        runAcc none (chromeScenario t0) =
          (some ("code.exe", t0 + 3), [mkSession "chrome.exe" t0 (t0 + 2)]) ∧
        (mkSession "chrome.exe" t0 (t0 + 2)).duration_seconds = 2 ∧
        (mkSession "chrome.exe" t0 (t0 + 2)).end_time = t0 + 2) := by
  have hone : ∀ t0 t : Nat, t0 / dayLen = t / dayLen →
      t ≤ (t0 / dayLen + 1) * dayLen := by
    intro t0 t h
    simp only [dayLen] at *
    omega
  refine ⟨?_, ?_, ?_, ?_⟩
  · intro a b t0 t hne hdate
    rw [show observe (some (a, t0)) ⟨t, some b⟩ = (some (b, t), splitSessions a t0 t)
      from by simp [observe, hne]]
    rw [splitSessions_eq_single a t0 t (hone t0 t hdate)]
  · intro a t0 t hdate
    rw [show observe (some (a, t0)) ⟨t, none⟩ = (none, splitSessions a t0 t)
      from by simp [observe]]
    rw [splitSessions_eq_single a t0 t (hone t0 t hdate)]
  · intro a t0 t hdate
    have hnd : ¬ t0 / dayLen < t / dayLen := by omega
    simp [observe, hnd]
  · intro t0 hdate
    have h1 : ¬ t0 / dayLen < (t0 + 1) / dayLen := by
      simp only [dayLen] at *; omega
    have hsingle := splitSessions_eq_single "chrome.exe" t0 (t0 + 2)
      (by simp only [dayLen] at *; omega)
    have hne : ("code.exe" : String) ≠ "chrome.exe" := by decide
    refine ⟨?_, ?_, rfl⟩
    · simp [runAcc, observe, chromeScenario, h1, hsingle]
    · simp only [mkSession]
      omega

theorem observe_transition_table_witness :
    observe (some ("chrome.exe", 100)) ⟨101, some "code.exe"⟩ =
      (some ("code.exe", 101), [mkSession "chrome.exe" 100 101]) ∧
    observe (some ("chrome.exe", 100)) ⟨101, none⟩ =
      (none, [mkSession "chrome.exe" 100 101]) ∧
    observe (some ("chrome.exe", 100)) ⟨101, some "chrome.exe"⟩ =
      (some ("chrome.exe", 100), []) ∧
    runAcc none (chromeScenario 50) =
      (some ("code.exe", 53), [mkSession "chrome.exe" 50 52]) :=
  ⟨observe_transition_table.1 "chrome.exe" "code.exe" 100 101 (by decide) (by decide),
   observe_transition_table.2.1 "chrome.exe" 100 101 (by decide),
   observe_transition_table.2.2.1 "chrome.exe" 100 101 (by decide),
   (observe_transition_table.2.2.2 50 (by decide)).1⟩

/-- C3: every Session emitted while running the accumulator over a strictly
time-increasing trace satisfies `duration_seconds = end_time - start_time`
and `duration_seconds > 0` (hence `start_time < end_time`); and a closing
sample always produces an emission whatever the open interval's length —
there is no minimum-duration filter, so even a session of a single time unit
is emitted, never dropped. -/
theorem emitted_sessions_wellformed (samples : List Sample)
    (hchain : timesIncr samples) :
    (∀ x ∈ (runAcc none samples).2,
        x.duration_seconds = x.end_time - x.start_time ∧
        0 < x.duration_seconds ∧
        x.start_time < x.end_time) ∧
    (∀ a t0 t, t0 < t → (observe (some (a, t0)) ⟨t, none⟩).2 ≠ []) := by
  constructor
  · intro x hx
    obtain ⟨h1, h2, -, -⟩ := runAcc_emitted_good samples none hchain
      (by intro a t0 s1 h; cases h) x hx
    exact ⟨h1, h2, by omega⟩
  · intro a t0 t ht
    rw [show (observe (some (a, t0)) ⟨t, none⟩).2 = splitSessions a t0 t
      from by simp [observe]]
    exact splitSessions_ne_nil a t0 t

theorem emitted_sessions_wellformed_witness :
    ((mkSession "chrome.exe" 0 2).duration_seconds =
        (mkSession "chrome.exe" 0 2).end_time -
          (mkSession "chrome.exe" 0 2).start_time ∧
      0 < (mkSession "chrome.exe" 0 2).duration_seconds ∧
      (mkSession "chrome.exe" 0 2).start_time <
        (mkSession "chrome.exe" 0 2).end_time) ∧
    (observe (some ("app.exe", 7)) ⟨8, none⟩).2 ≠ [] :=
  ⟨(emitted_sessions_wellformed (chromeScenario 0)
      (by norm_num [chromeScenario, List.chain'_cons])).1
      (mkSession "chrome.exe" 0 2)
      (by
        rw [show (runAcc none (chromeScenario 0)).2 =
            [mkSession "chrome.exe" 0 2] from by
          simp [runAcc, observe, chromeScenario, dayLen,
            splitSessions_eq_single "chrome.exe" 0 2 (by norm_num [dayLen])]]
        exact List.mem_singleton.mpr rfl),
   (emitted_sessions_wellformed [] (by decide)).2 "app.exe" 7 8 (by decide)⟩

/-- C4: no Session emitted over a strictly time-increasing trace spans more
than one calendar date: its stored `date` is the calendar date of its
`start_time` and its `end_time` does not pass the midnight that follows
`start_time`; moreover, when the date has advanced by a day during an open
session, the same-identity sample makes the accumulator emit
`Session{A, t0, midnight}` and immediately re-open `OpenSession(A, midnight)`. -/
theorem emitted_sessions_single_date (samples : List Sample)
    (hchain : timesIncr samples) :
    (∀ x ∈ (runAcc none samples).2,
        x.date = x.start_time / dayLen ∧
        x.end_time ≤ (x.start_time / dayLen + 1) * dayLen) ∧
    (∀ a t0 t, t0 / dayLen + 1 = t / dayLen →
        observe (some (a, t0)) ⟨t, some a⟩ =
          (some (a, t / dayLen * dayLen),
           [mkSession a t0 (t / dayLen * dayLen)])) := by
  constructor
  · intro x hx
    obtain ⟨-, -, h3, h4⟩ := runAcc_emitted_good samples none hchain
      (by intro a t0 s1 h; cases h) x hx
    exact ⟨h3, h4⟩
  · intro a t0 t hdate
    have hd : t0 / dayLen < t / dayLen := by omega
    have hsingle := splitSessions_eq_single a t0 (t / dayLen * dayLen)
      (by simp only [dayLen] at *; omega)
    simp [observe, hd, hsingle]

theorem emitted_sessions_single_date_witness :
    ((mkSession "chrome.exe" 0 2).date =
        (mkSession "chrome.exe" 0 2).start_time / dayLen ∧
      (mkSession "chrome.exe" 0 2).end_time ≤
        ((mkSession "chrome.exe" 0 2).start_time / dayLen + 1) * dayLen) ∧
    observe (some ("app.exe", 86399)) ⟨86401, some "app.exe"⟩ =
      (some ("app.exe", 86400), [mkSession "app.exe" 86399 86400]) :=
  ⟨(emitted_sessions_single_date (chromeScenario 0)
      (by norm_num [chromeScenario, List.chain'_cons])).1
      (mkSession "chrome.exe" 0 2)
      (by
        rw [show (runAcc none (chromeScenario 0)).2 =
            [mkSession "chrome.exe" 0 2] from by
          simp [runAcc, observe, chromeScenario, dayLen,
            splitSessions_eq_single "chrome.exe" 0 2 (by norm_num [dayLen])]]
        exact List.mem_singleton.mpr rfl),
   (emitted_sessions_single_date [] (by decide)).2 "app.exe" 86399 86401
      (by decide)⟩

/-- Modelled from the spec (§4.3, stop clause): `SessionAccumulator.stop()` —
while `OpenSession(A, t0)` emit `Session{A, t0, now}` and transition to
`NoSession`; in `NoSession` do nothing. -/
def stopAccum (st : AccState) (now : Nat) : AccState × List Session :=
  match st with
  | none => (none, [])
  | some (a, t0) => (none, [mkSession a t0 now])

/-- Modelled from the spec (§3, TrackerState, and §4.5): the orchestrator's
state — the `tracking` and `currently_idle` flags, the accumulator state
(holding `current_session_open_since`), and the TrackingStore contents it
flushes sessions to. -/
structure Tracker where
  tracking : Bool
  currently_idle : Bool
  acc : AccState
  store : List Session
deriving DecidableEq, Repr

/-- Modelled from the spec (§4.5): `stop()` forces the accumulator to stop
and flushes any resulting Session to TrackingStore before returning. -/
def stop_tracking (tr : Tracker) (now : Nat) : Tracker :=
  { tr with
    tracking := false
    acc := (stopAccum tr.acc now).1
    store := tr.store ++ (stopAccum tr.acc now).2 }

/-- Modelled from the spec (§4.5): `start()` begins tracking; calling it
while already tracking is a no-op, not an error. -/
def start_tracking (tr : Tracker) : Tracker :=
  if tr.tracking then tr else { tr with tracking := true }

/-- From `background_runner.pyw`, `BackgroundApp.toggle_tracking`: branch on
`self.window.tracker.tracking`; stop when tracking is on, start when off. -/
def toggle_tracking (tr : Tracker) (now : Nat) : Tracker :=
  if tr.tracking then stop_tracking tr now else start_tracking tr

/-- From `background_runner.pyw`, `BackgroundApp.exit_app`: stop tracking
when it is on, then quit. -/
def exit_app (tr : Tracker) (now : Nat) : Tracker :=
  if tr.tracking then stop_tracking tr now else tr

/-- C5: calling `stop()` while `OpenSession(A, t0)` appends
`Session{A, t0, now}` to the TrackingStore before `stop()` returns and
leaves the accumulator in `NoSession`; and the exit path stops tracking
whenever the tracking flag is on. -/
theorem stop_flushes_open_session (tr : Tracker) (a : String) (t0 now : Nat)
    (hacc : tr.acc = some (a, t0)) :
    (stop_tracking tr now).store = tr.store ++ [mkSession a t0 now] ∧
    (stop_tracking tr now).acc = none ∧
    (stop_tracking tr now).tracking = false ∧
    (tr.tracking = true → exit_app tr now = stop_tracking tr now) := by
  refine ⟨?_, ?_, rfl, ?_⟩
  · simp [stop_tracking, stopAccum, hacc]
  · simp [stop_tracking, stopAccum, hacc]
  · intro h
    simp [exit_app, h]

theorem stop_flushes_open_session_witness :
    (stop_tracking ⟨true, false, some ("notepad.exe", 100), []⟩ 145).store =
        [] ++ [mkSession "notepad.exe" 100 145] ∧
    (stop_tracking ⟨true, false, some ("notepad.exe", 100), []⟩ 145).acc =
        none ∧
    (mkSession "notepad.exe" 100 145).duration_seconds = 45 :=
  ⟨(stop_flushes_open_session ⟨true, false, some ("notepad.exe", 100), []⟩
      "notepad.exe" 100 145 rfl).1,
   (stop_flushes_open_session ⟨true, false, some ("notepad.exe", 100), []⟩
      "notepad.exe" 100 145 rfl).2.1,
   by decide⟩

/-- C8: `start()` is idempotent — starting twice equals starting once, and
starting while already tracking is a no-op; the tray toggle branches on the
tracking flag, stopping when on and starting when off. -/
theorem start_tracking_idempotent (tr : Tracker) (now : Nat) :
    start_tracking (start_tracking tr) = start_tracking tr ∧
    (tr.tracking = true → start_tracking tr = tr) ∧
    (tr.tracking = true → toggle_tracking tr now = stop_tracking tr now) ∧
    (tr.tracking = false → toggle_tracking tr now = start_tracking tr) := by
  by_cases h : tr.tracking <;>
    simp [start_tracking, toggle_tracking, h]

theorem start_tracking_idempotent_witness :
    start_tracking (start_tracking ⟨false, false, none, []⟩) =
        start_tracking ⟨false, false, none, []⟩ ∧
    start_tracking ⟨true, false, none, []⟩ = ⟨true, false, none, []⟩ ∧
    toggle_tracking ⟨false, false, none, []⟩ 7 =
        start_tracking ⟨false, false, none, []⟩ :=
  ⟨(start_tracking_idempotent ⟨false, false, none, []⟩ 0).1,
   (start_tracking_idempotent ⟨true, false, none, []⟩ 0).2.1 rfl,
   (start_tracking_idempotent ⟨false, false, none, []⟩ 7).2.2.2 rfl⟩

/-- Modelled from the spec (§4.4): `TrackingStore.append(session)` durably
persists the session as a new row of the sessions table. -/
def append (store : List Session) (s : Session) : List Session :=
  store ++ [s]

/-- Modelled from the spec (§4.4): the order of `query_by_date` rows —
descending by total duration, ties broken by app_name ascending. -/
def rowOrder (x y : String × Nat) : Prop :=
  y.2 < x.2 ∨ (x.2 = y.2 ∧ x.1 ≤ y.1)

instance : DecidableRel rowOrder := fun x y => by
  unfold rowOrder
  infer_instance

instance : IsTotal (String × Nat) rowOrder where
  total := by
    intro x y
    rcases Nat.lt_trichotomy x.2 y.2 with h | h | h
    · right; left; exact h
    · rcases le_total x.1 y.1 with hs | hs
      · left; right; exact ⟨h, hs⟩
      · right; right; exact ⟨h.symm, hs⟩
    · left; left; exact h

instance : IsTrans (String × Nat) rowOrder where
  trans := by
    intro x y z hxy hyz
    rcases hxy with h1 | ⟨h1, h1s⟩ <;> rcases hyz with h2 | ⟨h2, h2s⟩
    · left; omega
    · left; omega
    · left; omega
    · right; exact ⟨by omega, le_trans h1s h2s⟩

/-- The sessions-table rows stored under date `d`. -/
def sessionsOn (store : List Session) (d : Nat) : List Session :=
  store.filter (fun s => s.date = d)

/-- Accumulated per-app total duration for date `d`. -/
def appTotal (store : List Session) (d : Nat) (a : String) : Nat :=
  durSum ((sessionsOn store d).filter (fun s => s.app_name = a))

/-- Modelled from the spec (§4.4): `query_by_date(date)` — the per-app
aggregated `(app_name, total_duration)` rows of that date, sorted descending
by duration with ties broken by app_name ascending. -/
def query_by_date (store : List Session) (d : Nat) : List (String × Nat) :=
  List.insertionSort rowOrder
    (((sessionsOn store d).map (fun s => s.app_name)).dedup.map
      (fun a => (a, appTotal store d a)))

theorem sorted_head_max (l : List (String × Nat))
    (hs : List.Sorted rowOrder l) (h : l ≠ []) :
    ∀ p ∈ l, p.2 ≤ (l.head h).2 := by
  match l with
  | [] => exact absurd rfl h
  | x :: t =>
      intro p hp
      rcases List.mem_cons.1 hp with hp | hp
      · subst hp; exact le_refl _
      · have := List.rel_of_sorted_cons hs p hp
        rcases this with h1 | ⟨h1, -⟩ <;> simp [List.head] <;> omega

/-- A small concrete store used by the witnesses. -/
def demoStore : List Session :=
  [⟨"chrome.exe", 0, 2, 2, 0⟩, ⟨"code.exe", 3, 4, 1, 0⟩, ⟨"late.exe", 90000, 90005, 5, 1⟩]

/-- C6: `query_by_date` returns the per-app `(app_name, total_duration)`
rows sorted descending by duration with ties broken by app_name ascending;
consequently the first row carries the maximal total — the most-used app
that the quick-stats display reads as `today_data[0][0]`. -/
theorem query_by_date_sorted (store : List Session) (d : Nat) :
    List.Sorted rowOrder (query_by_date store d) ∧
    (∀ (h : query_by_date store d ≠ []),
      ∀ p ∈ query_by_date store d,
        p.2 ≤ ((query_by_date store d).head h).2) := by
  have hs : List.Sorted rowOrder (query_by_date store d) := by
    unfold query_by_date
    exact List.sorted_insertionSort rowOrder _
  exact ⟨hs, fun h p hp => sorted_head_max _ hs h p hp⟩

theorem query_by_date_sorted_witness :
    query_by_date demoStore 0 = [("chrome.exe", 2), ("code.exe", 1)] ∧
    ("code.exe", (1 : Nat)).2 ≤ ((query_by_date demoStore 0).head (by decide)).2 :=
  ⟨by decide,
   (query_by_date_sorted demoStore 0).2 (by decide) ("code.exe", 1) (by decide)⟩

/-- C7: round-trip through the store — after `append(s)`,
`query_by_date(s.date)` includes an entry for `s.app_name` whose total
duration is at least `s.duration_seconds`. -/
theorem append_query_roundtrip (store : List Session) (s : Session) :
    ∃ total, (s.app_name, total) ∈ query_by_date (append store s) s.date ∧
      s.duration_seconds ≤ total := by
  have hsmem : s ∈ sessionsOn (append store s) s.date := by
    unfold sessionsOn append
    exact List.mem_filter.2
      ⟨List.mem_append_right _ (List.mem_singleton.2 rfl), by simp⟩
  refine ⟨appTotal (append store s) s.date s.app_name, ?_, ?_⟩
  · unfold query_by_date
    rw [List.Perm.mem_iff (List.perm_insertionSort rowOrder _)]
    refine List.mem_map.2 ⟨s.app_name, ?_, rfl⟩
    exact List.mem_dedup.2 (List.mem_map_of_mem _ hsmem)
  · have hmem2 : s ∈ (sessionsOn (append store s) s.date).filter
        (fun x => x.app_name = s.app_name) :=
      List.mem_filter.2 ⟨hsmem, by simp⟩
    have hdmem : s.duration_seconds ∈
        ((sessionsOn (append store s) s.date).filter
          (fun x => x.app_name = s.app_name)).map
          (fun x => x.duration_seconds) :=
      List.mem_map_of_mem _ hmem2
    exact List.single_le_sum (fun x _ => Nat.zero_le x) _ hdmem

/-- From `background_runner.pyw` (`show_quick_stats`): the fallback message
shown when `get_app_usage_by_date()` returned no rows. -/
def no_data_message : String :=
  "No tracking data yet today.\nStart using your computer to see stats!"

/-- From `background_runner.pyw` (`show_quick_stats`):
`total_seconds = sum(duration for _, duration in today_data)`. -/
def total_seconds (today_data : List (String × Nat)) : Nat :=
  (today_data.map (fun p => p.2)).sum

/-- From `background_runner.pyw` (`show_quick_stats`):
`total_hours = total_seconds // 3600`. -/
def total_hours (ts : Nat) : Nat := ts / 3600

/-- From `background_runner.pyw` (`show_quick_stats`):
`total_minutes = (total_seconds % 3600) // 60`. -/
def total_minutes (ts : Nat) : Nat := ts % 3600 / 60

/-- From `background_runner.pyw` (`show_quick_stats`):
`most_used_app = today_data[0][0] if today_data else "None"` — element 0 is
read only when the list is non-empty. -/
def most_used_app (today_data : List (String × Nat)) : String :=
  match today_data with
  | [] => "None"
  | p :: _ => p.1

/-- From `background_runner.pyw` (`show_quick_stats`): the statistics
message built in the data-available branch. -/
def stats_message (td : List (String × Nat)) : String :=
  "📊 Today\x27s Stats:\n\n⏱️ Total Time: " ++
    toString (total_hours (total_seconds td)) ++ "h " ++
    toString (total_minutes (total_seconds td)) ++ "m\n📱 Apps Used: " ++
    toString td.length ++ "\n🏆 Most Used: " ++ most_used_app td

/-- From `background_runner.pyw` (`show_quick_stats`): branch on
`if today_data:` — the stats message when rows exist, the fallback
otherwise. -/
def show_quick_stats (td : List (String × Nat)) : String :=
  if td.isEmpty then no_data_message else stats_message td

/-- C9: `show_quick_stats` handles every result of
`get_app_usage_by_date()` — the empty result takes the no-data branch and
shows the fallback message, and element 0 of the result is consulted only
on the non-empty branch, where it is the list head. -/
theorem show_quick_stats_total :
    show_quick_stats [] = no_data_message ∧
    most_used_app [] = "None" ∧
    (∀ p rest,
      show_quick_stats (p :: rest) = stats_message (p :: rest) ∧
      most_used_app (p :: rest) = p.1) := by
  refine ⟨rfl, rfl, ?_⟩
  intro p rest
  exact ⟨by simp [show_quick_stats], rfl⟩

/-- C10: the quick-stats hours/minutes decomposition rounds `total_seconds`
down to the containing minute: minutes stay below 60 and the displayed
`h`/`m` pair brackets the true value within one minute. -/
theorem quick_stats_time_decomposition (ts : Nat) :
    total_minutes ts < 60 ∧
    3600 * total_hours ts + 60 * total_minutes ts ≤ ts ∧
    ts < 3600 * total_hours ts + 60 * total_minutes ts + 60 := by
  unfold total_hours total_minutes
  omega
